import Mathlib

/-!
Verification of the OctoFarm server core against its design document.

The environment-bootstrap utilities (`server/utils/env.utils.js`), the logging
handler (`server/handlers/logger.js`) and the boot sequence
(`serveOctoFarmNormally`) are embedded directly from the JavaScript source.
The Task Scheduler run semantics, the Connection Orchestrator and the Event
Fan-out Hub are not part of the source tree; where a claim depends on them
they are modelled from the design document (spec), and each such definition
says so in its doc comment.
-/

namespace OctoFarm

/-! ### Environment utilities (`server/utils/env.utils.js`) -/

/-- A parsed `.env` object: an ordered association list of KEY/VALUE pairs,
as produced by `dotenv.config().parsed` (JavaScript object keys keep
insertion order). -/
abbrev EnvObj := List (String × String)

/-- Embedding of the object spread `{...parsed, [variableKey]: variableValue}`
(env.utils.js lines 83–86): if the key is already present every entry with
that key has its value replaced in place, otherwise the pair is appended. -/
def mergeEnv (parsed : EnvObj) (key value : String) : EnvObj :=
  if parsed.any (fun p => p.1 == key) then
    parsed.map (fun p => if p.1 == key then (p.1, value) else p)
  else
    parsed ++ [(key, value)]

/-- Embedding of `stringifyDotEnv` (env.utils.js lines 45–53): one
`KEY=VALUE` line per entry, each terminated by a newline; entries whose key
is falsy (the empty string) are skipped by the `if (!key) continue` guard.
The `String(value)` coercion is reflected by taking values as strings. -/
def stringifyDotEnv (obj : EnvObj) : String :=
  obj.foldl
    (fun result p =>
      if p.1 = "" then result else result ++ (p.1 ++ "=" ++ p.2 ++ "\n"))
    ""

/-- The merged object that `writeVariableToEnvFile` (env.utils.js lines
64–92) serializes: the parsed contents of the existing `.env` file (or `{}`
when `dotenv` reported `ENOENT`, i.e. the `none` case) spread together with
the new pair. -/
def newEnvObject (existing : Option EnvObj) (key value : String) : EnvObj :=
  mergeEnv (existing.getD []) key value

/-- Embedding of the non-Docker path of `writeVariableToEnvFile`
(env.utils.js lines 64–92): the text written to the `.env` file is the
stringified merged object.  `existing` is `some parsed` when the file exists
and parses as KEY=VALUE lines, `none` when it does not exist (`ENOENT`);
a parse failure throws in the source and is outside this function's output. -/
def writeVariableToEnvFile (existing : Option EnvObj) (key value : String) :
    String :=
  stringifyDotEnv (newEnvObject existing key value)

/-- The entries `stringifyDotEnv` actually emits: those with a non-empty key,
in order. -/
def envEntries (obj : EnvObj) : EnvObj :=
  obj.filter (fun p => p.1 != "")

/-- The `name` field of a parsed `package.json`; `none` when the field is
absent. -/
structure PackageJson where
  name : Option String
deriving DecidableEq, Repr

/-- What `verifyPackageJsonRequirements` observes about the root directory:
the directory listing (`none` when `fs.readdirSync` throws) and the parsed
`package.json` (`none` when `require` throws, e.g. on malformed JSON). -/
structure RootDirView where
  dirContents : Option (List String)
  packageJson : Option PackageJson
deriving DecidableEq, Repr

/-- Embedding of JavaScript's `String.prototype.toLowerCase()`: lowercase
every character.  (Defined over the character list so it computes in the
kernel; Lean's own `String.toLower` is well-founded-recursive.) -/
def jsToLowerCase (s : String) : String := ⟨s.data.map Char.toLower⟩

/-- Embedding of `verifyPackageJsonRequirements` (env.utils.js lines
99–123).  The whole body is wrapped in `try/catch` returning `false`, so a
throwing `readdirSync` or `require` yields `false`; a `name` that is absent
or empty (JavaScript falsy, the `!pkg.name` guard) yields `false`; otherwise
the result is the lowercased comparison with the literal. -/
def verifyPackageJsonRequirements (root : RootDirView) : Bool :=
  match root.dirContents with
  | none => false
  | some contents =>
    if !contents.contains "package.json" then false
    else
      match root.packageJson with
      | none => false
      | some pkg =>
        match pkg.name with
        | none => false
        | some n =>
          if n = "" then false else jsToLowerCase n == "octofarm-server"

/-- An abstract filesystem as `ensureBackgroundImageExists` sees it: the set
of existing directories and the files with their contents. -/
structure FileSystem where
  dirs : List String
  files : List (String × String)
deriving DecidableEq, Repr

/-- Embedding of Node's `path.join` for the two-segment joins used in
env.utils.js. -/
def pathJoin (a b : String) : String := a ++ "/" ++ b

/-- Embedding of `ensureBackgroundImageExists` (env.utils.js lines 134–172):
create `<root>/images` if missing, return if `bg.jpg` is already present,
otherwise copy `<root>/server/utils/bg_default.jpg` when it exists.  The
`catch`-and-return branches around `mkdirSync`/`copy` leave the filesystem
unchanged, which is how the abstract filesystem (where these primitives do
not fail) behaves as well. -/
def ensureBackgroundImageExists (rootPath : String) (fs : FileSystem) :
    FileSystem :=
  let targetBgDir := pathJoin rootPath "images"
  let targetBgPath := pathJoin targetBgDir "bg.jpg"
  let fs1 :=
    if fs.dirs.contains targetBgDir then fs
    else { fs with dirs := fs.dirs ++ [targetBgDir] }
  if fs1.files.any (fun p => p.1 == targetBgPath) then fs1
  else
    let defaultBgPath :=
      pathJoin (pathJoin (pathJoin rootPath "server") "utils") "bg_default.jpg"
    match fs1.files.lookup defaultBgPath with
    | none => fs1
    | some buffer => { fs1 with files := fs1.files ++ [(targetBgPath, buffer)] }

/-! ### Logging handler (`server/handlers/logger.js`) -/

/-- One call into the underlying Winston logger: the level string passed to
`this.logger.log(level, message, { meta })`, the message, and the context
(meta) argument. -/
structure LogCall where
  level : String
  message : String
  meta : Option String
deriving DecidableEq, Repr

/-- Embedding of `LoggerService.info` (logger.js lines 147–149). -/
def LoggerService.info (message : String) (meta : Option String) : LogCall :=
  ⟨"info", message, meta⟩

/-- Embedding of `LoggerService.warning` (logger.js lines 151–153): the
exposed operation is named `warning`; it logs at the Winston level
string `"warn"`. -/
def LoggerService.warning (message : String) (meta : Option String) : LogCall :=
  ⟨"warn", message, meta⟩

/-- Embedding of `LoggerService.http` (logger.js lines 155–157). -/
def LoggerService.http (message : String) (meta : Option String) : LogCall :=
  ⟨"http", message, meta⟩

/-- Embedding of `LoggerService.debug` (logger.js lines 159–161). -/
def LoggerService.debug (message : String) (meta : Option String) : LogCall :=
  ⟨"debug", message, meta⟩

/-- Embedding of `LoggerService.error` (logger.js lines 163–165). -/
def LoggerService.error (message : String) (meta : Option String) : LogCall :=
  ⟨"error", message, meta⟩

/-- Embedding of `LoggerService.silly` (logger.js lines 167–169). -/
def LoggerService.silly (message : String) (meta : Option String) : LogCall :=
  ⟨"silly", message, meta⟩

/-- The names of the public logging operations the `LoggerService` class
exposes (logger.js lines 147–169), in declaration order. -/
def loggerServiceOperationNames : List String :=
  ["info", "warning", "http", "debug", "error", "silly"]

/-! ### Boot sequence and Task Scheduler (`serveOctoFarmNormally`, spec §4.2) -/

/-- Task kinds from the design document's data model (§3). -/
inductive TaskKind
  | startup
  | recurring
deriving DecidableEq, Repr

/-- A registrable task: its id, kind, and (for Recurring tasks) the positive
interval in milliseconds. -/
structure OctoTask where
  id : String
  kind : TaskKind
  intervalMs : Nat
deriving DecidableEq, Repr

/-- Embedding of the task-registration part of `serveOctoFarmNormally`
(app-core, lines 966–983): when `quick_boot` is false the system startup
tasks, the printer-initialise task and then each recurring boot task are
registered with the TaskManager, in that order; when `quick_boot` is true
the whole registration block is skipped and no task at all is registered.
The contents of `OctoFarmTasks` (`./tasks`, not in the source tree) are the
three parameters. -/
def serveOctoFarmNormally (systemStartupTasks : List OctoTask)
    (printerInitialiseTask : OctoTask) (recurringBootTasks : List OctoTask)
    (quick_boot : Bool) : List OctoTask :=
  if !quick_boot then
    systemStartupTasks ++ [printerInitialiseTask] ++ recurringBootTasks
  else
    []

/-- One task execution, at a millisecond timestamp measured from process
start. -/
structure RunEvent where
  taskId : String
  time : Nat
deriving DecidableEq, Repr

/-- Modelled from the spec: the Task Scheduler's run semantics (§4.2,
`TaskManager` is not under the source tree).  Registration happens at time
0; Startup tasks run once, immediately, in registration order (the time-0
runs); a Recurring task is scheduled at `now + intervalMs` and every
`intervalMs` thereafter, so with instantly-completing bodies it runs at the
positive multiples of its interval. -/
def runsAtTime (regs : List OctoTask) (t : Nat) : List RunEvent :=
  if t = 0 then
    (regs.filter (fun tk => tk.kind == TaskKind.startup)).map
      (fun tk => ⟨tk.id, 0⟩)
  else
    (regs.filter (fun tk =>
        tk.kind == TaskKind.recurring && 0 < tk.intervalMs &&
          t % tk.intervalMs == 0)).map
      (fun tk => ⟨tk.id, t⟩)

/-- Modelled from the spec: the scheduler's run trace from process start
through time `horizon`, in time order. -/
def traceUpTo (regs : List OctoTask) (horizon : Nat) : List RunEvent :=
  (List.range (horizon + 1)).flatMap (runsAtTime regs)

/-! ### Connection Orchestrator (spec §4.1; not under the source tree) -/

/-- Device connection states from the design document (§3, §4.1). -/
inductive DeviceState
  | Disconnected
  | Connecting
  | Connected
  | Degraded
  | Errored
  | Removed
deriving DecidableEq, Repr

/-- Deployment-tunable Orchestrator constants (§9): the consecutive-failure
ceiling at which a Degraded device becomes Errored. -/
structure OrchestratorConfig where
  failureCeiling : Nat
deriving DecidableEq, Repr

/-- Per-device runtime state from the data model (§3). -/
structure DeviceConnection where
  deviceId : String
  state : DeviceState
  lastSuccessAt : Option Nat
  consecutiveFailures : Nat
deriving DecidableEq, Repr

/-- The payload of an `Event` on topic DeviceState: the device, the new
state, and the failure reason when the poll failed. -/
structure DeviceStateEvent where
  deviceId : String
  newState : DeviceState
  failureReason : Option String
deriving DecidableEq, Repr

/-- The outcome of one status check against a device's network endpoint. -/
inductive PollOutcome
  | success
  | failure (reason : String)
deriving DecidableEq, Repr

/-- Modelled from the spec: `pollOnce` (§4.1, the Orchestrator is not under
the source tree).  On success it resets `consecutiveFailures` to 0, sets
state Connected, updates `lastSuccessAt` and emits a DeviceState event; on
failure it increments `consecutiveFailures`, transitions to Degraded or, at
the configured ceiling, Errored, and emits a DeviceState event carrying the
failure reason.  It is a total function into a pair — failures are data in
the emitted event, never a raised error. -/
def pollOnce (cfg : OrchestratorConfig) (now : Nat) (conn : DeviceConnection)
    (outcome : PollOutcome) : DeviceConnection × DeviceStateEvent :=
  match outcome with
  | .success =>
    let conn' := { conn with
      state := DeviceState.Connected
      consecutiveFailures := 0
      lastSuccessAt := some now }
    (conn', ⟨conn'.deviceId, conn'.state, none⟩)
  | .failure reason =>
    let failures := conn.consecutiveFailures + 1
    let newState :=
      if cfg.failureCeiling ≤ failures then DeviceState.Errored
      else DeviceState.Degraded
    let conn' := { conn with state := newState, consecutiveFailures := failures }
    (conn', ⟨conn'.deviceId, conn'.state, some reason⟩)

/-- Modelled from the spec: a batch poll ("poll all devices", §2) polls each
device once with its own outcome; because `pollOnce` is total, every device
is processed whatever the others' outcomes. -/
def batchPoll (cfg : OrchestratorConfig) (now : Nat)
    (polls : List (DeviceConnection × PollOutcome)) :
    List (DeviceConnection × DeviceStateEvent) :=
  polls.map (fun p => pollOnce cfg now p.1 p.2)

/-- Modelled from the spec: the successive states a device's polling loop
takes over a sequence of timestamped poll outcomes. -/
def stateTrace (cfg : OrchestratorConfig) (conn : DeviceConnection) :
    List (Nat × PollOutcome) → List DeviceState
  | [] => []
  | o :: rest =>
    let step := pollOnce cfg o.1 conn o.2
    step.1.state :: stateTrace cfg step.1 rest

/-- Modelled from the spec: the DeviceState events the same polling loop
publishes over the same sequence of poll outcomes. -/
def eventTrace (cfg : OrchestratorConfig) (conn : DeviceConnection) :
    List (Nat × PollOutcome) → List DeviceStateEvent
  | [] => []
  | o :: rest =>
    let step := pollOnce cfg o.1 conn o.2
    step.2 :: eventTrace cfg step.1 rest

/-! ### Event Fan-out Hub (spec §4.3; not under the source tree) -/

/-- Event topics (§3). -/
inductive Topic
  | DeviceState
  | DashboardStats
  | Monitoring
  | Generic
deriving DecidableEq, Repr

/-- An immutable event published to the Hub: topic, per-topic sequence
number, and an opaque payload (§3). -/
structure HubEvent where
  topic : Topic
  sequence : Nat
  payload : String
deriving DecidableEq, Repr

/-- A live Subscription (§3): subscriber id, topic, last delivered sequence
number, the bounded outbound channel (oldest first), and whether an overflow
marker is owed to the subscriber. -/
structure Subscription where
  subscriberId : Nat
  topic : Topic
  lastDeliveredSequence : Nat
  channel : List HubEvent
  overflowPending : Bool
deriving DecidableEq, Repr

/-- The Hub's state: the fixed per-subscription channel capacity, one
sequence counter per topic, and the current subscriptions. -/
structure Hub where
  capacity : Nat
  seqDeviceState : Nat
  seqDashboardStats : Nat
  seqMonitoring : Nat
  seqGeneric : Nat
  subs : List Subscription
deriving DecidableEq, Repr

/-- The Hub's sequence counter for a topic. -/
def Hub.seqOf (h : Hub) : Topic → Nat
  | .DeviceState => h.seqDeviceState
  | .DashboardStats => h.seqDashboardStats
  | .Monitoring => h.seqMonitoring
  | .Generic => h.seqGeneric

/-- Set the Hub's sequence counter for a topic. -/
def Hub.setSeq (h : Hub) (t : Topic) (n : Nat) : Hub :=
  match t with
  | .DeviceState => { h with seqDeviceState := n }
  | .DashboardStats => { h with seqDashboardStats := n }
  | .Monitoring => { h with seqMonitoring := n }
  | .Generic => { h with seqGeneric := n }

/-- Modelled from the spec: non-blocking delivery of one event to one
subscriber (§4.3 backpressure policy).  A subscriber of another topic is
untouched; when the bounded channel is full the oldest buffered event is
dropped and the owed `SubscriberOverflow` marker is recorded, so the
operation always completes without waiting for the consumer. -/
def deliverTo (cap : Nat) (ev : HubEvent) (s : Subscription) : Subscription :=
  if s.topic == ev.topic then
    if s.channel.length < cap then { s with channel := s.channel ++ [ev] }
    else { s with channel := s.channel.tail ++ [ev], overflowPending := true }
  else s

/-- Modelled from the spec: `publish` (§4.3) assigns the next per-topic
sequence number and attempts non-blocking delivery to every current
subscriber of that topic. -/
def publish (h : Hub) (t : Topic) (payload : String) : Hub :=
  let seq := h.seqOf t + 1
  let ev : HubEvent := ⟨t, seq, payload⟩
  { h.setSeq t seq with subs := h.subs.map (deliverTo h.capacity ev) }

/-- What a subscriber receives from its channel: a buffered event, or the
in-band `SubscriberOverflow` marker (§7). -/
inductive DeliveredUnit
  | event (e : HubEvent)
  | overflowMarker (topic : Topic)
deriving DecidableEq, Repr

/-- Modelled from the spec: a subscriber draining its channel.  The owed
`SubscriberOverflow` marker (if any) is delivered first — the gap precedes
the retained events — then the buffered events oldest to newest;
`lastDeliveredSequence` advances to the largest delivered sequence. -/
def drainSub (s : Subscription) : Subscription × List DeliveredUnit :=
  let units :=
    (if s.overflowPending then [DeliveredUnit.overflowMarker s.topic] else [])
      ++ s.channel.map DeliveredUnit.event
  ({ s with
      channel := []
      overflowPending := false
      lastDeliveredSequence :=
        s.channel.foldl (fun a e => max a e.sequence) s.lastDeliveredSequence },
    units)

/-- The observable actions on the Hub: a producer publishing, an observer
attaching or detaching, and a subscriber draining its channel. -/
inductive HubAction
  | publish (t : Topic) (payload : String)
  | subscribe (sid : Nat) (t : Topic)
  | unsubscribe (sid : Nat)
  | drain (sid : Nat)
deriving DecidableEq, Repr

/-- Modelled from the spec: `subscribe` (§4.3) creates a Subscription with a
bounded (empty) delivery channel; delivery starts from the next published
event, so `lastDeliveredSequence` starts at the current topic counter.
Subscriber ids identify subscriptions, so an already-used id is a no-op.
(The optional `sinceSequence` replay buffer is not modelled; no claim
depends on it.) -/
def hubSubscribe (h : Hub) (sid : Nat) (t : Topic) : Hub :=
  if h.subs.any (fun s => s.subscriberId == sid) then h
  else { h with subs := h.subs ++ [⟨sid, t, h.seqOf t, [], false⟩] }

/-- Modelled from the spec: `unsubscribe` (§4.3) is idempotent and releases
the channel. -/
def hubUnsubscribe (h : Hub) (sid : Nat) : Hub :=
  { h with subs := h.subs.filter (fun s => s.subscriberId != sid) }

/-- Drain the subscription with the given id (subscriber ids are unique, so
at most one matches): the updated subscription list and the units the
subscriber received. -/
def drainIn : List Subscription → Nat → List Subscription × List DeliveredUnit
  | [], _ => ([], [])
  | s :: rest, sid =>
    if s.subscriberId == sid then
      let d := drainSub s
      (d.1 :: rest, d.2)
    else
      let r := drainIn rest sid
      (s :: r.1, r.2)

/-- One Hub step: the new Hub state plus the units delivered to observers,
tagged with the receiving subscriber id. -/
def hubStep (h : Hub) : HubAction → Hub × List (Nat × DeliveredUnit)
  | .publish t payload => (publish h t payload, [])
  | .subscribe sid t => (hubSubscribe h sid t, [])
  | .unsubscribe sid => (hubUnsubscribe h sid, [])
  | .drain sid =>
    let r := drainIn h.subs sid
    ({ h with subs := r.1 }, r.2.map (fun u => (sid, u)))

/-- A Hub run: fold the steps, concatenating the delivery log. -/
def hubRun (h : Hub) : List HubAction → Hub × List (Nat × DeliveredUnit)
  | [] => (h, [])
  | a :: as =>
    let step := hubStep h a
    let rest := hubRun step.1 as
    (rest.1, step.2 ++ rest.2)

/-- The Hub before any subscriber attaches or event is published. -/
def mkHub (capacity : Nat) : Hub :=
  ⟨capacity, 0, 0, 0, 0, []⟩

/-- The sequence numbers of the (non-marker) events a given subscriber was
delivered on a given topic, in delivery order. -/
def dlvSeqs (log : List (Nat × DeliveredUnit)) (sid : Nat) (t : Topic) :
    List Nat :=
  log.filterMap (fun p =>
    if p.1 == sid then
      match p.2 with
      | .event e => if e.topic == t then some e.sequence else none
      | .overflowMarker _ => none
    else none)

/-- The per-subscription ordering invariant, relative to the per-topic
sequence counters and the delivery log so far: buffered sequence numbers are
strictly increasing, sit strictly above everything already delivered to this
subscriber, and never exceed the topic counter. -/
def SubInv (seqOf : Topic → Nat) (log : List (Nat × DeliveredUnit))
    (s : Subscription) : Prop :=
  List.Chain' (· < ·) (s.channel.map HubEvent.sequence) ∧
  (∀ e ∈ s.channel, e.topic = s.topic ∧
    s.lastDeliveredSequence < e.sequence ∧ e.sequence ≤ seqOf s.topic) ∧
  s.lastDeliveredSequence ≤ seqOf s.topic ∧
  (∀ x ∈ dlvSeqs log s.subscriberId s.topic, x ≤ s.lastDeliveredSequence)

/-- The global ordering invariant on the delivery log: per subscriber and
topic, delivered sequence numbers are strictly increasing and bounded by the
topic counter. -/
def GlobalInv (seqOf : Topic → Nat) (log : List (Nat × DeliveredUnit)) :
    Prop :=
  ∀ sid t, List.Chain' (· < ·) (dlvSeqs log sid t) ∧
    ∀ x ∈ dlvSeqs log sid t, x ≤ seqOf t

/-- The full Hub invariant: unique subscriber ids, every subscription's
invariant, and the global log invariant. -/
def HubInv (h : Hub) (log : List (Nat × DeliveredUnit)) : Prop :=
  (h.subs.map (fun s => s.subscriberId)).Nodup ∧
  (∀ s ∈ h.subs, SubInv h.seqOf log s) ∧
  GlobalInv h.seqOf log

/-- `n` consecutive publishes on one topic (the §8 backpressure scenario:
the subscriber never drains in between). -/
def publishN (h : Hub) (t : Topic) : Nat → Hub
  | 0 => h
  | n + 1 => publish (publishN h t n) t "ev"

/-- The channel contents after `m` such publishes into an initially-empty
subscription with capacity `cap`: the last `min m cap` published events. -/
def chanAfter (t : Topic) (m cap : Nat) : List HubEvent :=
  (List.range' (m - cap) (min m cap)).map (fun i => ⟨t, i + 1, "ev"⟩)

/-- The key-to-value mapping a `.env` object denotes (first occurrence wins;
objects produced by `dotenv` have unique keys, so this is the mapping). -/
def envLookup (k : String) : EnvObj → Option String
  | [] => none
  | p :: rest => if p.1 = k then some p.2 else envLookup k rest

/-! ### Theorems -/

/-- Replacing the value at `key` leaves the lookup of every other key
unchanged. -/
theorem envLookup_replaceMap (l : EnvObj) (key value k : String)
    (hne : k ≠ key) :
    envLookup k (l.map (fun p => if p.1 == key then (p.1, value) else p)) =
      envLookup k l := by
  induction l with
  | nil => rfl
  | cons p rest ih =>
    rw [List.map_cons]
    by_cases hp : p.1 = key
    · have h1 : (p.1 == key) = true := beq_iff_eq.mpr hp
      have hk : ¬ p.1 = k := fun h => hne (h.symm.trans hp)
      rw [if_pos h1]
      simp only [envLookup]
      rw [if_neg hk, if_neg hk]
      exact ih
    · have h1 : ¬ ((p.1 == key) = true) := by simp [hp]
      rw [if_neg h1]
      simp only [envLookup]
      by_cases hpk : p.1 = k
      · rw [if_pos hpk, if_pos hpk]
      · rw [if_neg hpk, if_neg hpk]
        exact ih

/-- Replacing the value at a present `key` makes `key` look up the new
value. -/
theorem envLookup_replaceMap_self (l : EnvObj) (key value : String)
    (h : l.any (fun p => p.1 == key) = true) :
    envLookup key (l.map (fun p => if p.1 == key then (p.1, value) else p)) =
      some value := by
  induction l with
  | nil => simp at h
  | cons p rest ih =>
    rw [List.map_cons]
    by_cases hp : p.1 = key
    · have h1 : (p.1 == key) = true := beq_iff_eq.mpr hp
      rw [if_pos h1]
      simp only [envLookup]
      rw [if_pos hp]
    · have h1 : ¬ ((p.1 == key) = true) := by simp [hp]
      have h' : rest.any (fun p => p.1 == key) = true := by
        rcases (List.any_eq_true).mp h with ⟨x, hx, hxk⟩
        rcases List.mem_cons.mp hx with rfl | hx'
        · exact absurd (beq_iff_eq.mp hxk) hp
        · exact List.any_eq_true.mpr ⟨x, hx', hxk⟩
      rw [if_neg h1]
      simp only [envLookup]
      rw [if_neg hp]
      exact ih h'

/-- Appending a fresh pair leaves the lookup of every other key
unchanged. -/
theorem envLookup_append_single (l : EnvObj) (key value k : String)
    (hne : k ≠ key) :
    envLookup k (l ++ [(key, value)]) = envLookup k l := by
  induction l with
  | nil =>
    have hk : ¬ key = k := fun h => hne h.symm
    simp only [List.nil_append, envLookup]
    rw [if_neg hk]
  | cons p rest ih =>
    rw [List.cons_append]
    simp only [envLookup]
    by_cases hpk : p.1 = k
    · rw [if_pos hpk, if_pos hpk]
    · rw [if_neg hpk, if_neg hpk]
      exact ih

/-- Appending a pair whose key was absent makes that key look up the new
value. -/
theorem envLookup_append_single_self (l : EnvObj) (key value : String)
    (h : l.any (fun p => p.1 == key) = false) :
    envLookup key (l ++ [(key, value)]) = some value := by
  induction l with
  | nil => simp [envLookup]
  | cons p rest ih =>
    have hp : ¬ p.1 = key := by
      intro hpk
      simp [List.any_cons, hpk] at h
    have h' : rest.any (fun p => p.1 == key) = false := by
      simp only [List.any_cons, Bool.or_eq_false_iff] at h
      exact h.2
    rw [List.cons_append]
    simp only [envLookup]
    rw [if_neg hp]
    exact ih h'

/-- Dropping the empty-keyed entries does not change the lookup of a
non-empty key. -/
theorem envLookup_envEntries (l : EnvObj) (k : String) (hk : k ≠ "") :
    envLookup k (envEntries l) = envLookup k l := by
  induction l with
  | nil => rfl
  | cons p rest ih =>
    by_cases hp : p.1 = ""
    · have hpk : ¬ p.1 = k := by rw [hp]; exact fun h => hk h.symm
      have hf : (p.1 != "") = false := by simp [hp]
      show envLookup k (List.filter _ (p :: rest)) = _
      rw [List.filter_cons, hf]
      simp only [envLookup, Bool.false_eq_true, if_false]
      rw [if_neg hpk]
      exact ih
    · have hf : (p.1 != "") = true := by simp [hp]
      show envLookup k (List.filter _ (p :: rest)) = _
      rw [List.filter_cons, hf]
      simp only [envLookup, if_true]
      by_cases hpk : p.1 = k
      · rw [if_pos hpk, if_pos hpk]
      · rw [if_neg hpk, if_neg hpk]
        exact ih

/-- After the spread-merge, the written key maps to the new value. -/
theorem envLookup_mergeEnv_self (parsed : EnvObj) (key value : String) :
    envLookup key (mergeEnv parsed key value) = some value := by
  unfold mergeEnv
  by_cases h : parsed.any (fun p => p.1 == key) = true
  · rw [if_pos h]
    exact envLookup_replaceMap_self parsed key value h
  · have h' : parsed.any (fun p => p.1 == key) = false :=
      Bool.eq_false_iff.mpr h
    rw [if_neg h]
    exact envLookup_append_single_self parsed key value h'

/-- After the spread-merge, every other key maps to its previous value. -/
theorem envLookup_mergeEnv_ne (parsed : EnvObj) (key value k : String)
    (hne : k ≠ key) :
    envLookup k (mergeEnv parsed key value) = envLookup k parsed := by
  unfold mergeEnv
  by_cases h : parsed.any (fun p => p.1 == key) = true
  · rw [if_pos h]
    exact envLookup_replaceMap parsed key value k hne
  · rw [if_neg h]
    exact envLookup_append_single parsed key value k hne

/-- `stringifyDotEnv` emits exactly the non-empty-keyed entries: filtering
them away first changes nothing. -/
theorem stringifyDotEnv_envEntries (obj : EnvObj) :
    stringifyDotEnv (envEntries obj) = stringifyDotEnv obj := by
  suffices h : ∀ acc : String,
      (obj.filter (fun p => p.1 != "")).foldl
        (fun result p =>
          if p.1 = "" then result else result ++ (p.1 ++ "=" ++ p.2 ++ "\n"))
        acc =
      obj.foldl
        (fun result p =>
          if p.1 = "" then result else result ++ (p.1 ++ "=" ++ p.2 ++ "\n"))
        acc from h ""
  induction obj with
  | nil => intro acc; rfl
  | cons p rest ih =>
    intro acc
    by_cases hp : p.1 = ""
    · have hf : (p.1 != "") = false := by simp [hp]
      rw [List.filter_cons, hf]
      simp only [Bool.false_eq_true, if_false, List.foldl_cons]
      rw [if_pos hp]
      exact ih acc
    · have hf : (p.1 != "") = true := by simp [hp]
      rw [List.filter_cons, hf]
      simp only [if_true, List.foldl_cons]
      exact ih _

/-- C8: for every existing `.env` file parsing to `parsed` and every
non-empty `variableKey`, `writeVariableToEnvFile` (non-Docker) writes the
stringified merged object, in which `variableKey` maps to the new value and
every other previously present non-empty key still maps to its previous
value; when the file did not exist the merged object is exactly the new
pair; and entries with an empty key are omitted from the output. -/
theorem writeVariableToEnvFile_frame (parsed : EnvObj) (key value : String)
    (hkey : key ≠ "") :
    writeVariableToEnvFile (some parsed) key value =
      stringifyDotEnv (envEntries (newEnvObject (some parsed) key value)) ∧
    envLookup key (envEntries (newEnvObject (some parsed) key value)) =
      some value ∧
    (∀ k, k ≠ key → k ≠ "" →
      envLookup k (envEntries (newEnvObject (some parsed) key value)) =
        envLookup k parsed) ∧
    newEnvObject none key value = [(key, value)] ∧
    (∀ p ∈ envEntries (newEnvObject (some parsed) key value), p.1 ≠ "") := by
  refine ⟨?_, ?_, ?_, ?_, ?_⟩
  · unfold writeVariableToEnvFile
    exact (stringifyDotEnv_envEntries _).symm
  · rw [envLookup_envEntries _ _ hkey]
    exact envLookup_mergeEnv_self parsed key value
  · intro k hk hk0
    rw [envLookup_envEntries _ _ hk0]
    exact envLookup_mergeEnv_ne parsed key value k hk
  · unfold newEnvObject mergeEnv
    simp
  · intro p hp
    have h := List.mem_filter.mp hp
    simpa using h.2

/-- C8 (witness): `writeVariableToEnvFile_frame` at the `.env` object
`A=1, B=2`, overwriting `B` with `3`. -/
theorem writeVariableToEnvFile_frame_witness :
    ("B" : String) ≠ "" ∧
    (writeVariableToEnvFile (some [("A", "1"), ("B", "2")]) "B" "3" =
      stringifyDotEnv
        (envEntries (newEnvObject (some [("A", "1"), ("B", "2")]) "B" "3")) ∧
    envLookup "B"
        (envEntries (newEnvObject (some [("A", "1"), ("B", "2")]) "B" "3")) =
      some "3" ∧
    (∀ k, k ≠ "B" → k ≠ "" →
      envLookup k
          (envEntries (newEnvObject (some [("A", "1"), ("B", "2")]) "B" "3")) =
        envLookup k [("A", "1"), ("B", "2")]) ∧
    newEnvObject none "B" "3" = [("B", "3")] ∧
    (∀ p ∈ envEntries (newEnvObject (some [("A", "1"), ("B", "2")]) "B" "3"),
      p.1 ≠ "")) :=
  ⟨by decide, writeVariableToEnvFile_frame [("A", "1"), ("B", "2")] "B" "3"
    (by decide)⟩

/-- The branch structure of `ensureBackgroundImageExists`, with every
condition expressed on the input filesystem (the mkdir step never changes
`files`). -/
theorem ensureBg_char (rootPath : String) (fs : FileSystem) :
    ensureBackgroundImageExists rootPath fs =
      (if fs.files.any
          (fun p => p.1 == pathJoin (pathJoin rootPath "images") "bg.jpg") then
        (if fs.dirs.contains (pathJoin rootPath "images") then fs
         else { fs with dirs := fs.dirs ++ [pathJoin rootPath "images"] })
      else
        match fs.files.lookup
            (pathJoin (pathJoin (pathJoin rootPath "server") "utils")
              "bg_default.jpg") with
        | none =>
          (if fs.dirs.contains (pathJoin rootPath "images") then fs
           else { fs with dirs := fs.dirs ++ [pathJoin rootPath "images"] })
        | some buffer =>
          { (if fs.dirs.contains (pathJoin rootPath "images") then fs
             else { fs with dirs := fs.dirs ++ [pathJoin rootPath "images"] })
            with files := fs.files ++
              [(pathJoin (pathJoin rootPath "images") "bg.jpg", buffer)] }) := by
  by_cases h1 : fs.dirs.contains (pathJoin rootPath "images") = true
  · simp only [ensureBackgroundImageExists, h1, if_true]
  · have h1' : fs.dirs.contains (pathJoin rootPath "images") = false :=
      Bool.eq_false_iff.mpr h1
    simp only [ensureBackgroundImageExists, h1', Bool.false_eq_true, if_false]

/-- A filesystem that already has the images directory and the background
image is a fixed point of `ensureBackgroundImageExists`. -/
theorem ensureBg_fixed (rootPath : String) (g : FileSystem)
    (hdir : g.dirs.contains (pathJoin rootPath "images") = true)
    (hbg : g.files.any
      (fun p => p.1 == pathJoin (pathJoin rootPath "images") "bg.jpg") = true) :
    ensureBackgroundImageExists rootPath g = g := by
  simp only [ensureBackgroundImageExists, hdir, if_true, hbg]

/-- A filesystem with the images directory, no background image and no
default image is also a fixed point. -/
theorem ensureBg_fixed_nodefault (rootPath : String) (g : FileSystem)
    (hdir : g.dirs.contains (pathJoin rootPath "images") = true)
    (hbg : g.files.any
      (fun p => p.1 == pathJoin (pathJoin rootPath "images") "bg.jpg") = false)
    (hdef : g.files.lookup
      (pathJoin (pathJoin (pathJoin rootPath "server") "utils")
        "bg_default.jpg") = none) :
    ensureBackgroundImageExists rootPath g = g := by
  simp only [ensureBackgroundImageExists, hdir, if_true, hbg,
    Bool.false_eq_true, if_false, hdef]

/-- C10: `ensureBackgroundImageExists` is idempotent — when
`<root>/images/bg.jpg` already exists (with its parent directory, as on any
real filesystem) the call performs no filesystem writes, and in every case
calling it twice has the same filesystem effect as calling it once. -/
theorem ensureBackgroundImageExists_idempotent (rootPath : String)
    (fs : FileSystem) :
    (pathJoin (pathJoin rootPath "images") "bg.jpg" ∈ fs.files.map Prod.fst →
      pathJoin rootPath "images" ∈ fs.dirs →
      ensureBackgroundImageExists rootPath fs = fs) ∧
    ensureBackgroundImageExists rootPath
        (ensureBackgroundImageExists rootPath fs) =
      ensureBackgroundImageExists rootPath fs := by
  constructor
  · intro hbg hdir
    have hdirs : fs.dirs.contains (pathJoin rootPath "images") = true := by
      simpa using hdir
    have hany : fs.files.any
        (fun p => p.1 == pathJoin (pathJoin rootPath "images") "bg.jpg") =
          true := by
      rcases List.mem_map.mp hbg with ⟨p, hp, hfst⟩
      exact List.any_eq_true.mpr ⟨p, hp, by simp [hfst]⟩
    exact ensureBg_fixed rootPath fs hdirs hany
  · by_cases h2 : fs.files.any
        (fun p => p.1 == pathJoin (pathJoin rootPath "images") "bg.jpg") = true
    · by_cases h1 : fs.dirs.contains (pathJoin rootPath "images") = true
      · have hg : ensureBackgroundImageExists rootPath fs = fs := by
          rw [ensureBg_char]
          simp only [h2, if_true, h1]
        rw [hg, hg]
      · have h1' : fs.dirs.contains (pathJoin rootPath "images") = false :=
          Bool.eq_false_iff.mpr h1
        have hg : ensureBackgroundImageExists rootPath fs =
            { fs with dirs := fs.dirs ++ [pathJoin rootPath "images"] } := by
          rw [ensureBg_char]
          simp only [h2, if_true, h1', Bool.false_eq_true, if_false]
        rw [hg]
        exact ensureBg_fixed rootPath _ (by simp) h2
    · have h2' : fs.files.any
          (fun p => p.1 == pathJoin (pathJoin rootPath "images") "bg.jpg") =
            false := Bool.eq_false_iff.mpr h2
      cases hdef : fs.files.lookup
          (pathJoin (pathJoin (pathJoin rootPath "server") "utils")
            "bg_default.jpg") with
      | none =>
        by_cases h1 : fs.dirs.contains (pathJoin rootPath "images") = true
        · have hg : ensureBackgroundImageExists rootPath fs = fs := by
            rw [ensureBg_char]
            simp only [h2', Bool.false_eq_true, if_false, hdef, h1, if_true]
          rw [hg, hg]
        · have h1' : fs.dirs.contains (pathJoin rootPath "images") = false :=
            Bool.eq_false_iff.mpr h1
          have hg : ensureBackgroundImageExists rootPath fs =
              { fs with dirs := fs.dirs ++ [pathJoin rootPath "images"] } := by
            rw [ensureBg_char]
            simp only [h2', Bool.false_eq_true, if_false, hdef, h1']
          rw [hg]
          exact ensureBg_fixed_nodefault rootPath _ (by simp) h2' hdef
      | some buf =>
        have hg : ensureBackgroundImageExists rootPath fs =
            { dirs := (if fs.dirs.contains (pathJoin rootPath "images") then
                fs.dirs else fs.dirs ++ [pathJoin rootPath "images"]),
              files := fs.files ++
                [(pathJoin (pathJoin rootPath "images") "bg.jpg", buf)] } := by
          rw [ensureBg_char]
          simp only [h2', Bool.false_eq_true, if_false, hdef]
          by_cases h1 : fs.dirs.contains (pathJoin rootPath "images") = true
          · simp only [h1, if_true]
          · have h1' : fs.dirs.contains (pathJoin rootPath "images") = false :=
              Bool.eq_false_iff.mpr h1
            simp only [h1', Bool.false_eq_true, if_false]
        rw [hg]
        refine ensureBg_fixed rootPath _ ?_ (by simp)
        by_cases h1 : fs.dirs.contains (pathJoin rootPath "images") = true
        · simp only [h1, if_true]
        · have h1' : fs.dirs.contains (pathJoin rootPath "images") = false :=
            Bool.eq_false_iff.mpr h1
          simp only [h1', Bool.false_eq_true, if_false]
          simp

/-- C10 (witness): `ensureBackgroundImageExists_idempotent` on a filesystem
that already holds `/OctoFarm/images/bg.jpg`. -/
theorem ensureBackgroundImageExists_idempotent_witness :
    ensureBackgroundImageExists "/OctoFarm"
        ⟨["/OctoFarm/images"], [("/OctoFarm/images/bg.jpg", "jpegdata")]⟩ =
      ⟨["/OctoFarm/images"], [("/OctoFarm/images/bg.jpg", "jpegdata")]⟩ ∧
    ensureBackgroundImageExists "/OctoFarm"
        (ensureBackgroundImageExists "/OctoFarm"
          ⟨["/OctoFarm/images"], [("/OctoFarm/images/bg.jpg", "jpegdata")]⟩) =
      ensureBackgroundImageExists "/OctoFarm"
        ⟨["/OctoFarm/images"], [("/OctoFarm/images/bg.jpg", "jpegdata")]⟩ :=
  ⟨(ensureBackgroundImageExists_idempotent "/OctoFarm"
      ⟨["/OctoFarm/images"], [("/OctoFarm/images/bg.jpg", "jpegdata")]⟩).1
      (by decide) (by decide),
    (ensureBackgroundImageExists_idempotent "/OctoFarm"
      ⟨["/OctoFarm/images"], [("/OctoFarm/images/bg.jpg", "jpegdata")]⟩).2⟩

/-- C9: `verifyPackageJsonRequirements` returns a boolean and never throws —
every filesystem or parse error (a `none` observation) is caught and yields
`false` — and it returns `true` exactly when the directory listing of
`rootPath` contains `package.json` whose `name` field, lowercased, equals
`octofarm-server`. -/
theorem verifyPackageJsonRequirements_spec (root : RootDirView) :
    verifyPackageJsonRequirements root = true ↔
      ∃ contents pkg n,
        root.dirContents = some contents ∧ "package.json" ∈ contents ∧
        root.packageJson = some pkg ∧ pkg.name = some n ∧
        jsToLowerCase n = "octofarm-server" := by
  obtain ⟨dc, pj⟩ := root
  unfold verifyPackageJsonRequirements
  cases dc with
  | none => simp
  | some contents =>
    cases pj with
    | none => simp
    | some pkg =>
      cases pkg with
      | mk nm =>
        cases nm with
        | none => simp
        | some n =>
          by_cases hmem : "package.json" ∈ contents
          · by_cases hn : n = ""
            · subst hn
              simp [hmem]
              intro h
              exact absurd h.symm (by decide)
            · simp [hmem, hn, beq_iff_eq]
          · simp [hmem]

/-- C7 (counterexample): the exposed logging operations of `LoggerService`
do not include one named `warn` — the code names it `warning`. -/
theorem loggerService_warn_not_exposed :
    "warn" ∉ loggerServiceOperationNames := by decide

/-- C7 (amended): the injected logging interface exposes operations named
`info`, `warning` and `error` (not `warn`), each accepting a message and a
context (meta) argument; `warning` logs at the underlying Winston level
string `"warn"`. -/
theorem loggerService_interface_ops :
    "info" ∈ loggerServiceOperationNames ∧
    "warning" ∈ loggerServiceOperationNames ∧
    "error" ∈ loggerServiceOperationNames ∧
    (∀ m c, LoggerService.info m c = ⟨"info", m, c⟩ ∧
      LoggerService.warning m c = ⟨"warn", m, c⟩ ∧
      LoggerService.error m c = ⟨"error", m, c⟩) :=
  ⟨by decide, by decide, by decide, fun m c => ⟨rfl, rfl, rfl⟩⟩

/-- C1 (counterexample): with `quick_boot = true`, a registered Startup task
does not run exactly once — `serveOctoFarmNormally` skips the whole
registration block, so the startup task runs zero times. -/
theorem quickBoot_startup_skipped_cex :
    ¬ ((traceUpTo
          (serveOctoFarmNormally [⟨"system_startup", TaskKind.startup, 0⟩]
            ⟨"printer_initialise", TaskKind.startup, 0⟩ [] true) 10).count
        (⟨"system_startup", 0⟩ : RunEvent) = 1) := by decide

/-- C1 (amended): with `quick_boot = true`, task registration is skipped
entirely: no task of either kind is registered, so zero Recurring-task runs
and also zero Startup-task runs occur. -/
theorem quickBoot_true_no_tasks (sst : List OctoTask) (pit : OctoTask)
    (rbt : List OctoTask) (horizon : Nat) :
    serveOctoFarmNormally sst pit rbt true = [] ∧
    traceUpTo (serveOctoFarmNormally sst pit rbt true) horizon = [] := by
  refine ⟨rfl, ?_⟩
  show traceUpTo [] horizon = []
  simp [traceUpTo, runsAtTime]

/-- C6: in a normal boot (`quick_boot = false`), the registered Startup
tasks — the system startup tasks followed by the printer-initialise task, in
registration order — each run exactly once at time 0, as the prefix of the
scheduler trace, and everything after that prefix is a run of a Recurring
boot task at a strictly positive time: every Startup task runs before any
Recurring task starts. -/
theorem startup_before_recurring (sst : List OctoTask) (pit : OctoTask)
    (rbt : List OctoTask) (horizon : Nat)
    (hs : ∀ tk ∈ sst, tk.kind = TaskKind.startup)
    (hp : pit.kind = TaskKind.startup)
    (hr : ∀ tk ∈ rbt, tk.kind = TaskKind.recurring) :
    ∃ rest,
      traceUpTo (serveOctoFarmNormally sst pit rbt false) horizon =
        (sst ++ [pit]).map (fun tk => (⟨tk.id, 0⟩ : RunEvent)) ++ rest ∧
      ∀ e ∈ rest, 0 < e.time ∧ e.taskId ∈ rbt.map OctoTask.id := by
  have hreg : serveOctoFarmNormally sst pit rbt false =
      sst ++ [pit] ++ rbt := rfl
  rw [hreg]
  refine ⟨((List.range horizon).map Nat.succ).flatMap
      (runsAtTime (sst ++ [pit] ++ rbt)), ?_, ?_⟩
  · rw [traceUpTo, List.range_succ_eq_map, List.flatMap_cons]
    congr 1
    rw [runsAtTime, if_pos rfl, List.filter_append, List.filter_append]
    have h1 : sst.filter (fun tk => tk.kind == TaskKind.startup) = sst :=
      List.filter_eq_self.mpr (fun tk htk => by simp [hs tk htk])
    have h2 : [pit].filter (fun tk => tk.kind == TaskKind.startup) = [pit] := by
      simp [List.filter_cons, hp]
    have h3 : rbt.filter (fun tk => tk.kind == TaskKind.startup) = [] :=
      List.filter_eq_nil_iff.mpr (fun tk htk => by simp [hr tk htk])
    rw [h1, h2, h3, List.append_nil]
  · intro e he
    rcases List.mem_flatMap.mp he with ⟨t, ht, het⟩
    rcases List.mem_map.mp ht with ⟨k, _, rfl⟩
    rw [runsAtTime, if_neg (Nat.succ_ne_zero k)] at het
    rcases List.mem_map.mp het with ⟨tk, htk, rfl⟩
    refine ⟨Nat.succ_pos k, ?_⟩
    have h4 := List.mem_filter.mp htk
    have hkind : tk.kind = TaskKind.recurring := by
      have h5 := h4.2
      simp only [Bool.and_eq_true, beq_iff_eq] at h5
      exact h5.1.1
    rcases List.mem_append.mp h4.1 with h5 | h5
    · rcases List.mem_append.mp h5 with h6 | h6
      · rw [hs tk h6] at hkind
        exact absurd hkind (by simp)
      · rw [List.mem_singleton.mp h6] at hkind
        rw [hp] at hkind
        exact absurd hkind (by simp)
    · exact List.mem_map.mpr ⟨tk, h5, rfl⟩

/-- C6 (witness): `startup_before_recurring` applied to one system startup
task, the printer-initialise task and one recurring task. -/
theorem startup_before_recurring_witness :
    (∀ tk ∈ [(⟨"s1", TaskKind.startup, 0⟩ : OctoTask)],
      tk.kind = TaskKind.startup) ∧
    (⟨"p", TaskKind.startup, 0⟩ : OctoTask).kind = TaskKind.startup ∧
    (∀ tk ∈ [(⟨"r", TaskKind.recurring, 2⟩ : OctoTask)],
      tk.kind = TaskKind.recurring) ∧
    ∃ rest,
      traceUpTo
          (serveOctoFarmNormally [⟨"s1", TaskKind.startup, 0⟩]
            ⟨"p", TaskKind.startup, 0⟩ [⟨"r", TaskKind.recurring, 2⟩] false)
          5 =
        ([(⟨"s1", TaskKind.startup, 0⟩ : OctoTask)] ++
            [(⟨"p", TaskKind.startup, 0⟩ : OctoTask)]).map
          (fun tk => (⟨tk.id, 0⟩ : RunEvent)) ++ rest ∧
      ∀ e ∈ rest, 0 < e.time ∧
        e.taskId ∈ [(⟨"r", TaskKind.recurring, 2⟩ : OctoTask)].map OctoTask.id :=
  ⟨by decide, by decide, by decide,
    startup_before_recurring [⟨"s1", TaskKind.startup, 0⟩]
      ⟨"p", TaskKind.startup, 0⟩ [⟨"r", TaskKind.recurring, 2⟩] 5
      (by decide) (by decide) (by decide)⟩

/-- C2: in the polling-loop model, every transition of a device's `state` is
accompanied by exactly one DeviceState event carrying the new state — over
any execution the event sequence and the state-transition sequence have the
same length and the events' `newState` components are exactly the successive
states. -/
theorem deviceStateEvents_match_transitions (cfg : OrchestratorConfig)
    (conn : DeviceConnection) (outcomes : List (Nat × PollOutcome)) :
    (eventTrace cfg conn outcomes).map DeviceStateEvent.newState =
      stateTrace cfg conn outcomes ∧
    (eventTrace cfg conn outcomes).length = outcomes.length := by
  induction outcomes generalizing conn with
  | nil => exact ⟨rfl, rfl⟩
  | cons o rest ih =>
    have hnew : ((pollOnce cfg o.1 conn o.2).2).newState =
        (pollOnce cfg o.1 conn o.2).1.state := by
      cases o.2 <;> rfl
    simpa [eventTrace, stateTrace, hnew] using ih (pollOnce cfg o.1 conn o.2).1

/-- C3: `pollOnce` never raises to its caller (it is a total function into a
state/event pair): on success it resets `consecutiveFailures` to 0, sets
state Connected, updates `lastSuccessAt` and emits a DeviceState event; on
failure it increments `consecutiveFailures`, transitions to Degraded or —
exactly at the configured ceiling — Errored, and carries the failure only in
the emitted event, so a batch poll produces one result per device whatever
the outcomes. -/
theorem pollOnce_contains_failures (cfg : OrchestratorConfig) (now : Nat)
    (conn : DeviceConnection) (r : String)
    (polls : List (DeviceConnection × PollOutcome)) :
    ((pollOnce cfg now conn PollOutcome.success).1.consecutiveFailures = 0 ∧
      (pollOnce cfg now conn PollOutcome.success).1.state =
        DeviceState.Connected ∧
      (pollOnce cfg now conn PollOutcome.success).1.lastSuccessAt = some now ∧
      (pollOnce cfg now conn PollOutcome.success).2 =
        ⟨conn.deviceId, DeviceState.Connected, none⟩) ∧
    ((pollOnce cfg now conn (PollOutcome.failure r)).1.consecutiveFailures =
        conn.consecutiveFailures + 1 ∧
      ((pollOnce cfg now conn (PollOutcome.failure r)).1.state =
          DeviceState.Degraded ∨
        (pollOnce cfg now conn (PollOutcome.failure r)).1.state =
          DeviceState.Errored) ∧
      ((pollOnce cfg now conn (PollOutcome.failure r)).1.state =
          DeviceState.Errored ↔
        cfg.failureCeiling ≤ conn.consecutiveFailures + 1) ∧
      (pollOnce cfg now conn (PollOutcome.failure r)).2.failureReason =
        some r ∧
      (pollOnce cfg now conn (PollOutcome.failure r)).2.newState =
        (pollOnce cfg now conn (PollOutcome.failure r)).1.state) ∧
    (batchPoll cfg now polls).length = polls.length := by
  refine ⟨⟨rfl, rfl, rfl, rfl⟩, ⟨rfl, ?_, ?_, rfl, rfl⟩, by
    simp [batchPoll]⟩
  · by_cases hc : cfg.failureCeiling ≤ conn.consecutiveFailures + 1
    · right; simp [pollOnce, hc]
    · left; simp [pollOnce, hc]
  · by_cases hc : cfg.failureCeiling ≤ conn.consecutiveFailures + 1
    · simp [pollOnce, hc]
    · simp [pollOnce, hc]

/-- `deliverTo` never changes the subscriber id. -/
theorem deliverTo_subscriberId (cap : Nat) (ev : HubEvent)
    (s : Subscription) : (deliverTo cap ev s).subscriberId = s.subscriberId := by
  unfold deliverTo
  split
  · split <;> rfl
  · rfl

/-- `deliverTo` never changes the topic. -/
theorem deliverTo_topic (cap : Nat) (ev : HubEvent) (s : Subscription) :
    (deliverTo cap ev s).topic = s.topic := by
  unfold deliverTo
  split
  · split <;> rfl
  · rfl

/-- `deliverTo` never changes the last delivered sequence number. -/
theorem deliverTo_last (cap : Nat) (ev : HubEvent) (s : Subscription) :
    (deliverTo cap ev s).lastDeliveredSequence = s.lastDeliveredSequence := by
  unfold deliverTo
  split
  · split <;> rfl
  · rfl

/-- Reading the counter just set. -/
theorem seqOf_setSeq_self (h : Hub) (t : Topic) (n : Nat) :
    (h.setSeq t n).seqOf t = n := by cases t <;> rfl

/-- Reading any counter after setting one. -/
theorem seqOf_setSeq (h : Hub) (t t' : Topic) (n : Nat) :
    (h.setSeq t n).seqOf t' = if t' = t then n else h.seqOf t' := by
  cases t <;> cases t' <;> simp [Hub.setSeq, Hub.seqOf]

/-- `setSeq` does not touch the subscriptions. -/
theorem setSeq_subs (h : Hub) (t : Topic) (n : Nat) :
    (h.setSeq t n).subs = h.subs := by cases t <;> rfl

/-- `setSeq` does not touch the capacity. -/
theorem setSeq_capacity (h : Hub) (t : Topic) (n : Nat) :
    (h.setSeq t n).capacity = h.capacity := by cases t <;> rfl

/-- Replacing the subscription list does not touch the counters. -/
theorem seqOf_subsUpdate (h : Hub) (x : List Subscription) (t : Topic) :
    ({ h with subs := x } : Hub).seqOf t = h.seqOf t := by cases t <;> rfl

/-- The seed of a maximum fold bounds it from below. -/
theorem le_foldl_max (l : List Nat) (a : Nat) : a ≤ l.foldl max a := by
  induction l generalizing a with
  | nil => exact le_refl a
  | cons y ys ih => exact le_trans (le_max_left a y) (ih (max a y))

/-- Every element of the list bounds a maximum fold from below. -/
theorem mem_le_foldl_max (l : List Nat) : ∀ a x, x ∈ l → x ≤ l.foldl max a := by
  induction l with
  | nil => intro a x hx; cases hx
  | cons y ys ih =>
    intro a x hx
    rcases List.mem_cons.mp hx with rfl | hx'
    · exact le_trans (le_max_right a x) (le_foldl_max ys (max a x))
    · exact ih (max a y) x hx'

/-- A maximum fold stays under any common upper bound. -/
theorem foldl_max_le (l : List Nat) : ∀ a b, a ≤ b → (∀ x ∈ l, x ≤ b) →
    l.foldl max a ≤ b := by
  induction l with
  | nil => intro a b hab _; exact hab
  | cons y ys ih =>
    intro a b hab hall
    exact ih (max a y) b (max_le hab (hall y (List.mem_cons_self y ys)))
      (fun x hx => hall x (List.mem_cons_of_mem _ hx))

/-- The delivered-sequence extraction distributes over log concatenation. -/
theorem dlvSeqs_append (l1 l2 : List (Nat × DeliveredUnit)) (sid : Nat)
    (t : Topic) :
    dlvSeqs (l1 ++ l2) sid t = dlvSeqs l1 sid t ++ dlvSeqs l2 sid t :=
  List.filterMap_append l1 l2 _

/-- Units tagged for one subscriber contribute nothing to another's
delivered sequence numbers. -/
theorem dlvSeqs_tagged_ne (units : List DeliveredUnit) (sid sid' : Nat)
    (t : Topic) (h : sid' ≠ sid) :
    dlvSeqs (units.map (fun u => (sid, u))) sid' t = [] := by
  unfold dlvSeqs
  rw [List.filterMap_map]
  refine List.filterMap_eq_nil_iff.mpr fun u _ => ?_
  have hb : (sid == sid') = false := beq_eq_false_iff_ne.mpr (Ne.symm h)
  simp only [Function.comp_apply, hb, Bool.false_eq_true, if_false]

/-- Extracting sequence numbers from a homogeneous event list. -/
theorem filterMap_seq_of_topic (l : List HubEvent) (τ t : Topic)
    (ht : ∀ e ∈ l, e.topic = τ) :
    l.filterMap
        (fun e => if e.topic == t then some e.sequence else none) =
      (if t = τ then l.map HubEvent.sequence else []) := by
  induction l with
  | nil => simp
  | cons e es ih =>
    have he : e.topic = τ := ht e (List.mem_cons_self e es)
    have ih' := ih fun x hx => ht x (List.mem_cons_of_mem _ hx)
    by_cases htt : t = τ
    · have hb : (e.topic == t) = true := beq_iff_eq.mpr (he.trans htt.symm)
      have hf : (if e.topic == t then some e.sequence else none) =
          some e.sequence := by rw [hb]; rfl
      rw [if_pos htt, List.map_cons]
      rw [if_pos htt] at ih'
      simp only [List.filterMap_cons, hf, ih']
    · have hb : (e.topic == t) = false :=
        beq_eq_false_iff_ne.mpr (fun hc => htt ((hc.symm.trans he).symm ▸ rfl))
      have hf : (if e.topic == t then some e.sequence else none) =
          (none : Option Nat) := by rw [hb]; rfl
      rw [if_neg htt]
      rw [if_neg htt] at ih'
      simp only [List.filterMap_cons, hf, ih']

/-- What draining one subscription contributes to the delivered sequence
numbers: its buffered events' sequences on its own topic, nothing
elsewhere. -/
theorem dlvSeqs_drainSub (s : Subscription) (sid : Nat) (t : Topic)
    (htop : ∀ e ∈ s.channel, e.topic = s.topic) :
    dlvSeqs ((drainSub s).2.map (fun u => (sid, u))) sid t =
      (if t = s.topic then s.channel.map HubEvent.sequence else []) := by
  unfold drainSub dlvSeqs
  rw [List.map_append, List.filterMap_append, List.filterMap_map,
    List.filterMap_map]
  have h1 : ((if s.overflowPending then [DeliveredUnit.overflowMarker s.topic]
      else []).filterMap
      ((fun p : Nat × DeliveredUnit =>
        if p.1 == sid then
          match p.2 with
          | .event e => if e.topic == t then some e.sequence else none
          | .overflowMarker _ => none
        else none) ∘ (fun u => (sid, u)))) = [] := by
    cases s.overflowPending <;> simp
  rw [h1, List.nil_append]
  have h2 : ∀ e : HubEvent,
      ((fun p : Nat × DeliveredUnit =>
        if p.1 == sid then
          match p.2 with
          | .event e => if e.topic == t then some e.sequence else none
          | .overflowMarker _ => none
        else none) ∘ (fun u => (sid, u))) (DeliveredUnit.event e) =
        (if e.topic == t then some e.sequence else none) := by
    intro e
    simp
  calc (s.channel.map DeliveredUnit.event).filterMap _
      = s.channel.filterMap
          (fun e => if e.topic == t then some e.sequence else none) := by
        rw [List.filterMap_map]
        exact List.filterMap_congr (fun e _ => h2 e)
    _ = _ := filterMap_seq_of_topic s.channel s.topic t htop

/-- The counters after a publish: the published topic is bumped, the rest
are unchanged. -/
theorem publish_seqOf (h : Hub) (t : Topic) (payload : String) (t' : Topic) :
    (publish h t payload).seqOf t' =
      if t' = t then h.seqOf t + 1 else h.seqOf t' := by
  unfold publish
  rw [seqOf_subsUpdate, seqOf_setSeq]

/-- The subscriptions after a publish. -/
theorem publish_subs (h : Hub) (t : Topic) (payload : String) :
    (publish h t payload).subs =
      h.subs.map (deliverTo h.capacity ⟨t, h.seqOf t + 1, payload⟩) := rfl

/-- Counters never decrease across a publish. -/
theorem publish_seqOf_mono (h : Hub) (t : Topic) (payload : String)
    (t' : Topic) : h.seqOf t' ≤ (publish h t payload).seqOf t' := by
  rw [publish_seqOf]
  by_cases ht : t' = t
  · rw [if_pos ht, ht]
    exact Nat.le_succ _
  · rw [if_neg ht]

/-- Delivering the freshly published event preserves each subscription's
invariant. -/
theorem subInv_deliverTo (h : Hub) (log : List (Nat × DeliveredUnit))
    (t : Topic) (payload : String) (s : Subscription)
    (hs : SubInv h.seqOf log s) :
    SubInv (publish h t payload).seqOf log
      (deliverTo h.capacity ⟨t, h.seqOf t + 1, payload⟩ s) := by
  obtain ⟨hch, hel, hlast, hlog⟩ := hs
  have hseq := publish_seqOf h t payload
  unfold deliverTo
  dsimp only
  by_cases hst : (s.topic == t) = true
  · have hstt : s.topic = t := beq_iff_eq.mp hst
    have hseqt : (publish h t payload).seqOf s.topic = h.seqOf t + 1 := by
      rw [hseq s.topic, if_pos hstt]
    rw [if_pos hst]
    by_cases hlen : s.channel.length < h.capacity
    · rw [if_pos hlen]
      refine ⟨?_, ?_, ?_, ?_⟩
      · dsimp only
        rw [List.map_append]
        refine List.Chain'.append hch (List.chain'_singleton _) ?_
        intro x hx y hy
        have hy' : h.seqOf t + 1 = y := by simpa using hy
        have hx' : x ∈ s.channel.map HubEvent.sequence :=
          List.mem_of_getLast?_eq_some hx
        rcases List.mem_map.mp hx' with ⟨e, he, rfl⟩
        have := (hel e he).2.2
        rw [hstt] at this
        omega
      · dsimp only
        intro e he
        rcases List.mem_append.mp he with he' | he'
        · obtain ⟨h1, h2, h3⟩ := hel e he'
          refine ⟨h1, h2, ?_⟩
          dsimp only
          rw [hseqt]
          rw [hstt] at h3
          omega
        · rcases List.mem_singleton.mp he' with rfl
          refine ⟨hstt.symm, ?_, ?_⟩
          · dsimp only
            rw [hstt] at hlast
            omega
          · dsimp only
            rw [hseqt]
      · dsimp only
        rw [hseqt]
        rw [hstt] at hlast
        omega
      · dsimp only
        exact hlog
    · rw [if_neg hlen]
      refine ⟨?_, ?_, ?_, ?_⟩
      · dsimp only
        rw [List.map_append]
        refine List.Chain'.append ?_ (List.chain'_singleton _) ?_
        · rw [List.map_tail]
          exact hch.tail
        · intro x hx y hy
          have hy' : h.seqOf t + 1 = y := by simpa using hy
          have hx' : x ∈ (s.channel.map HubEvent.sequence).tail := by
            rw [← List.map_tail]
            exact List.mem_of_getLast?_eq_some hx
          have hx'' : x ∈ s.channel.map HubEvent.sequence :=
            List.mem_of_mem_tail hx'
          rcases List.mem_map.mp hx'' with ⟨e, he, rfl⟩
          have := (hel e he).2.2
          rw [hstt] at this
          omega
      · dsimp only
        intro e he
        rcases List.mem_append.mp he with he' | he'
        · obtain ⟨h1, h2, h3⟩ := hel e (List.mem_of_mem_tail he')
          refine ⟨h1, h2, ?_⟩
          dsimp only
          rw [hseqt]
          rw [hstt] at h3
          omega
        · rcases List.mem_singleton.mp he' with rfl
          refine ⟨hstt.symm, ?_, ?_⟩
          · dsimp only
            rw [hstt] at hlast
            omega
          · dsimp only
            rw [hseqt]
      · dsimp only
        rw [hseqt]
        rw [hstt] at hlast
        omega
      · dsimp only
        exact hlog
  · rw [if_neg hst]
    have hmono := publish_seqOf_mono h t payload s.topic
    exact ⟨hch, fun e he => ⟨(hel e he).1, (hel e he).2.1,
      le_trans (hel e he).2.2 hmono⟩, le_trans hlast hmono, hlog⟩

/-- Publishing preserves the Hub invariant (no units are delivered, so the
log is unchanged). -/
theorem hubInv_publish (h : Hub) (log : List (Nat × DeliveredUnit))
    (t : Topic) (payload : String) (hinv : HubInv h log) :
    HubInv (publish h t payload) log := by
  obtain ⟨hnd, hsub, hglob⟩ := hinv
  refine ⟨?_, ?_, ?_⟩
  · have hids : (publish h t payload).subs.map (fun s => s.subscriberId) =
        h.subs.map (fun s => s.subscriberId) := by
      rw [publish_subs, List.map_map]
      exact List.map_congr_left (fun s _ => deliverTo_subscriberId _ _ s)
    rw [hids]
    exact hnd
  · intro s' hs'
    rw [publish_subs] at hs'
    rcases List.mem_map.mp hs' with ⟨s, hsm, rfl⟩
    exact subInv_deliverTo h log t payload s (hsub s hsm)
  · intro sid t'
    exact ⟨(hglob sid t').1, fun x hx =>
      le_trans ((hglob sid t').2 x hx) (publish_seqOf_mono h t payload t')⟩

/-- Replacing the subscription list leaves the counter function
unchanged. -/
theorem seqOf_subsUpdate_funext (h : Hub) (x : List Subscription) :
    ({ h with subs := x } : Hub).seqOf = h.seqOf :=
  funext fun t => seqOf_subsUpdate h x t

/-- Attaching a subscriber preserves the Hub invariant. -/
theorem hubInv_subscribe (h : Hub) (log : List (Nat × DeliveredUnit))
    (sid : Nat) (t : Topic) (hinv : HubInv h log) :
    HubInv (hubSubscribe h sid t) log := by
  obtain ⟨hnd, hsub, hglob⟩ := hinv
  unfold hubSubscribe
  by_cases hex : (h.subs.any (fun s => s.subscriberId == sid)) = true
  · rw [if_pos hex]
    exact ⟨hnd, hsub, hglob⟩
  · rw [if_neg hex]
    have hnotin : ∀ s ∈ h.subs, s.subscriberId ≠ sid := by
      intro s hs hc
      exact hex (List.any_eq_true.mpr ⟨s, hs, beq_iff_eq.mpr hc⟩)
    refine ⟨?_, ?_, ?_⟩
    · dsimp only
      rw [List.map_append]
      refine List.Nodup.append hnd (List.nodup_singleton sid) ?_
      intro a ha hb
      rcases List.mem_map.mp ha with ⟨s, hs, rfl⟩
      have hb' : s.subscriberId = sid := by simpa using hb
      exact hnotin s hs hb'
    · rw [seqOf_subsUpdate_funext]
      intro s' hs'
      dsimp only at hs'
      rcases List.mem_append.mp hs' with hs'' | hs''
      · exact hsub s' hs''
      · rcases List.mem_singleton.mp hs'' with rfl
        refine ⟨List.chain'_nil, ?_, le_refl _, ?_⟩
        · intro e he
          cases he
        · intro x hx
          exact (hglob sid t).2 x hx
    · rw [seqOf_subsUpdate_funext]
      exact hglob

/-- Detaching a subscriber preserves the Hub invariant. -/
theorem hubInv_unsubscribe (h : Hub) (log : List (Nat × DeliveredUnit))
    (sid : Nat) (hinv : HubInv h log) :
    HubInv (hubUnsubscribe h sid) log := by
  obtain ⟨hnd, hsub, hglob⟩ := hinv
  unfold hubUnsubscribe
  refine ⟨?_, ?_, ?_⟩
  · dsimp only
    exact List.Nodup.sublist
      (List.Sublist.map _ (List.filter_sublist h.subs)) hnd
  · rw [seqOf_subsUpdate_funext]
    intro s' hs'
    dsimp only at hs'
    exact hsub s' (List.mem_of_mem_filter hs')
  · rw [seqOf_subsUpdate_funext]
    exact hglob

/-- `drainIn` either finds no match and changes nothing, or splits the list
around the first matching subscription, drains it in place and returns its
units. -/
theorem drainIn_cases (subs : List Subscription) (sid : Nat) :
    (drainIn subs sid = (subs, []) ∧ ∀ s ∈ subs, s.subscriberId ≠ sid) ∨
    ∃ pre s₀ post, subs = pre ++ s₀ :: post ∧ s₀.subscriberId = sid ∧
      (∀ s ∈ pre, s.subscriberId ≠ sid) ∧
      drainIn subs sid = (pre ++ (drainSub s₀).1 :: post, (drainSub s₀).2) := by
  induction subs with
  | nil =>
    left
    exact ⟨rfl, fun s hs => absurd hs (List.not_mem_nil s)⟩
  | cons s rest ih =>
    by_cases hs : (s.subscriberId == sid) = true
    · right
      refine ⟨[], s, rest, rfl, beq_iff_eq.mp hs,
        fun x hx => absurd hx (List.not_mem_nil x), ?_⟩
      unfold drainIn
      rw [if_pos hs]
      rfl
    · have hsf : (s.subscriberId == sid) = false := Bool.eq_false_iff.mpr hs
      have hne : s.subscriberId ≠ sid := by simpa using hsf
      rcases ih with ⟨heq, hall⟩ | ⟨pre, s₀, post, heq, hsid, hpre, hdr⟩
      · left
        constructor
        · unfold drainIn
          rw [if_neg hs]
          dsimp only
          rw [heq]
        · intro x hx
          rcases List.mem_cons.mp hx with rfl | hx'
          · exact hne
          · exact hall x hx'
      · right
        refine ⟨s :: pre, s₀, post, by rw [heq, List.cons_append], hsid, ?_, ?_⟩
        · intro x hx
          rcases List.mem_cons.mp hx with rfl | hx'
          · exact hne
          · exact hpre x hx'
        · unfold drainIn
          rw [if_neg hs]
          dsimp only
          rw [hdr, List.cons_append]

/-- Draining a subscriber preserves the Hub invariant, with the delivered
units appended to the log. -/
theorem hubInv_drain (h : Hub) (log : List (Nat × DeliveredUnit)) (sid : Nat)
    (hinv : HubInv h log) :
    HubInv { h with subs := (drainIn h.subs sid).1 }
      (log ++ (drainIn h.subs sid).2.map (fun u => (sid, u))) := by
  obtain ⟨hnd, hsub, hglob⟩ := hinv
  rcases drainIn_cases h.subs sid with ⟨heq, hall⟩ |
    ⟨pre, s₀, post, heq, hsid, hpre, hdr⟩
  · rw [heq]
    dsimp only
    rw [List.map_nil, List.append_nil]
    refine ⟨hnd, ?_, ?_⟩
    · rw [seqOf_subsUpdate_funext]
      exact hsub
    · rw [seqOf_subsUpdate_funext]
      exact hglob
  · have hmem₀ : s₀ ∈ h.subs := by
      rw [heq]
      exact List.mem_append_right _ (List.mem_cons_self s₀ post)
    obtain ⟨hch₀, hel₀, hlast₀, hlog₀⟩ := hsub s₀ hmem₀
    have htop₀ : ∀ e ∈ s₀.channel, e.topic = s₀.topic :=
      fun e he => (hel₀ e he).1
    have hfold : s₀.channel.foldl (fun a e => max a e.sequence)
        s₀.lastDeliveredSequence =
        (s₀.channel.map HubEvent.sequence).foldl max
          s₀.lastDeliveredSequence :=
      (List.foldl_map _ _ _ _).symm
    have hpostne : ∀ s ∈ post, s.subscriberId ≠ sid := by
      intro s hs hc
      rw [heq, List.map_append, List.map_cons] at hnd
      rcases List.nodup_append.mp hnd with ⟨_, hnd2, _⟩
      rcases List.nodup_cons.mp hnd2 with ⟨hnotin, _⟩
      have hmm : s₀.subscriberId ∈ post.map (fun s => s.subscriberId) := by
        rw [hsid, ← hc]
        exact List.mem_map.mpr ⟨s, hs, rfl⟩
      exact hnotin hmm
    rw [hdr]
    dsimp only
    refine ⟨?_, ?_, ?_⟩
    · have hids : (pre ++ (drainSub s₀).1 :: post).map
          (fun s => s.subscriberId) =
          (pre ++ s₀ :: post).map (fun s => s.subscriberId) := by
        rw [List.map_append, List.map_append, List.map_cons, List.map_cons]
        rfl
      rw [hids, ← heq]
      exact hnd
    · rw [seqOf_subsUpdate_funext]
      intro s hs
      rcases List.mem_append.mp hs with hs' | hs'
      · have hins : s ∈ h.subs := by
          rw [heq]
          exact List.mem_append_left _ hs'
        obtain ⟨a, b, c, d⟩ := hsub s hins
        refine ⟨a, b, c, ?_⟩
        intro x hx
        rw [dlvSeqs_append, dlvSeqs_tagged_ne _ _ _ _ (hpre s hs'),
          List.append_nil] at hx
        exact d x hx
      · rcases List.mem_cons.mp hs' with rfl | hs''
        · have hdid : (drainSub s₀).1.subscriberId = s₀.subscriberId := rfl
          have hdtop : (drainSub s₀).1.topic = s₀.topic := rfl
          have hdlast : (drainSub s₀).1.lastDeliveredSequence =
              s₀.channel.foldl (fun a e => max a e.sequence)
                s₀.lastDeliveredSequence := rfl
          refine ⟨List.chain'_nil, ?_, ?_, ?_⟩
          · intro e he
            cases he
          · rw [hdlast, hdtop, hfold]
            exact foldl_max_le _ _ _ hlast₀ (fun x hx => by
              rcases List.mem_map.mp hx with ⟨e, he, rfl⟩
              exact (hel₀ e he).2.2)
          · intro x hx
            rw [hdid, hdtop, dlvSeqs_append] at hx
            rw [hdlast, hfold]
            rcases List.mem_append.mp hx with hx' | hx'
            · exact le_trans (hlog₀ x hx') (le_foldl_max _ _)
            · rw [hsid] at hx'
              rw [dlvSeqs_drainSub s₀ sid s₀.topic htop₀, if_pos rfl] at hx'
              exact mem_le_foldl_max _ _ x hx'
        · have hins : s ∈ h.subs := by
            rw [heq]
            exact List.mem_append_right _ (List.mem_cons_of_mem _ hs'')
          obtain ⟨a, b, c, d⟩ := hsub s hins
          refine ⟨a, b, c, ?_⟩
          intro x hx
          rw [dlvSeqs_append, dlvSeqs_tagged_ne _ _ _ _ (hpostne s hs''),
            List.append_nil] at hx
          exact d x hx
    · rw [seqOf_subsUpdate_funext]
      intro sid' t'
      rw [dlvSeqs_append]
      by_cases hsid' : sid' = sid
      · subst hsid'
        rw [dlvSeqs_drainSub s₀ sid' t' htop₀]
        by_cases ht' : t' = s₀.topic
        · rw [if_pos ht']
          constructor
          · refine List.Chain'.append (hglob sid' t').1 hch₀ ?_
            intro x hx y hy
            have hx' : x ∈ dlvSeqs log sid' t' :=
              List.mem_of_getLast?_eq_some hx
            have hy' : y ∈ s₀.channel.map HubEvent.sequence :=
              List.mem_of_mem_head? hy
            rcases List.mem_map.mp hy' with ⟨e, he, rfl⟩
            have h1 : x ≤ s₀.lastDeliveredSequence := by
              rw [hsid] at hlog₀
              rw [ht'] at hx'
              exact hlog₀ x hx'
            have h2 := (hel₀ e he).2.1
            omega
          · intro x hx
            rcases List.mem_append.mp hx with hx' | hx'
            · exact (hglob sid' t').2 x hx'
            · rcases List.mem_map.mp hx' with ⟨e, he, rfl⟩
              rw [ht']
              exact (hel₀ e he).2.2
        · rw [if_neg ht', List.append_nil]
          exact hglob sid' t'
      · rw [dlvSeqs_tagged_ne _ _ _ _ hsid', List.append_nil]
        exact hglob sid' t'

/-- Every Hub step preserves the invariant, extending the log with the
units it delivered. -/
theorem hubInv_step (h : Hub) (log : List (Nat × DeliveredUnit))
    (a : HubAction) (hinv : HubInv h log) :
    HubInv (hubStep h a).1 (log ++ (hubStep h a).2) := by
  cases a with
  | publish t payload =>
    show HubInv (publish h t payload) (log ++ [])
    rw [List.append_nil]
    exact hubInv_publish h log t payload hinv
  | subscribe sid t =>
    show HubInv (hubSubscribe h sid t) (log ++ [])
    rw [List.append_nil]
    exact hubInv_subscribe h log sid t hinv
  | unsubscribe sid =>
    show HubInv (hubUnsubscribe h sid) (log ++ [])
    rw [List.append_nil]
    exact hubInv_unsubscribe h log sid hinv
  | drain sid =>
    exact hubInv_drain h log sid hinv

/-- A whole Hub run preserves the invariant. -/
theorem hubInv_run (h : Hub) (log : List (Nat × DeliveredUnit))
    (as : List HubAction) (hinv : HubInv h log) :
    HubInv (hubRun h as).1 (log ++ (hubRun h as).2) := by
  induction as generalizing h log with
  | nil =>
    show HubInv h (log ++ [])
    rw [List.append_nil]
    exact hinv
  | cons a as ih =>
    have h2 := ih (hubStep h a).1 (log ++ (hubStep h a).2)
      (hubInv_step h log a hinv)
    show HubInv (hubRun (hubStep h a).1 as).1
      (log ++ ((hubStep h a).2 ++ (hubRun (hubStep h a).1 as).2))
    rw [← List.append_assoc]
    exact h2

/-- The empty Hub satisfies the invariant with an empty log. -/
theorem hubInv_mkHub (cap : Nat) : HubInv (mkHub cap) [] := by
  refine ⟨List.nodup_nil, ?_, ?_⟩
  · intro s hs
    cases hs
  · intro sid t
    exact ⟨List.chain'_nil, fun x hx => absurd hx (List.not_mem_nil x)⟩

/-- C4: for any subscriber on a single topic, over any run of the Hub from
its initial state, the sequence numbers of the events delivered to that
subscriber on that topic are strictly increasing — non-decreasing with no
duplicates; nothing is claimed across topics. -/
theorem hub_delivery_ordered (cap : Nat) (as : List HubAction) (sid : Nat)
    (t : Topic) :
    List.Pairwise (· < ·) (dlvSeqs (hubRun (mkHub cap) as).2 sid t) := by
  have h := hubInv_run (mkHub cap) [] as (hubInv_mkHub cap)
  have hc := (h.2.2 sid t).1
  rw [List.nil_append] at hc
  exact List.chain'_iff_pairwise.mp hc

/-- The counters of the empty Hub. -/
theorem seqOf_mkHub (cap : Nat) (t : Topic) : (mkHub cap).seqOf t = 0 := by
  cases t <;> rfl

/-- Setting a topic counter to its current zero value changes nothing on the
empty Hub. -/
theorem setSeq_mkHub_zero (cap : Nat) (t : Topic) :
    (mkHub cap).setSeq t 0 = mkHub cap := by cases t <;> rfl

/-- Setting the same topic counter twice keeps only the second value. -/
theorem setSeq_setSeq (h : Hub) (t : Topic) (n n' : Nat) :
    (h.setSeq t n).setSeq t n' = h.setSeq t n' := by cases t <;> rfl

/-- `setSeq` commutes with replacing the subscription list. -/
theorem setSeq_subsUpdate_comm (h : Hub) (s : List Subscription) (t : Topic)
    (n : Nat) :
    ({ h with subs := s } : Hub).setSeq t n =
      { h.setSeq t n with subs := s } := by cases t <;> rfl

/-- Dropping the head of a unit-step range and appending the next value
shifts the range by one. -/
theorem range'_tail_concat (s n : Nat) (hn : 0 < n) :
    (List.range' s n).tail ++ [s + n] = List.range' (s + 1) n := by
  cases n with
  | zero => exact absurd hn (by omega)
  | succ k =>
    rw [List.range'_succ]
    dsimp only [List.tail]
    have h1 : s + (k + 1) = (s + 1) + k := by omega
    rw [h1, ← List.range'_1_concat]

/-- One more publish extends the channel, dropping the oldest event exactly
when the channel is full. -/
theorem chanAfter_succ (t : Topic) (m cap : Nat) (hcap : 0 < cap) :
    chanAfter t (m + 1) cap =
      (if m < cap then chanAfter t m cap ++ [⟨t, m + 1, "ev"⟩]
       else (chanAfter t m cap).tail ++ [⟨t, m + 1, "ev"⟩]) := by
  unfold chanAfter
  by_cases hm : m < cap
  · rw [if_pos hm]
    have h1 : m - cap = 0 := by omega
    have h2 : m + 1 - cap = 0 := by omega
    have h3 : min m cap = m := by omega
    have h4 : min (m + 1) cap = m + 1 := by omega
    rw [h1, h2, h3, h4, List.range'_1_concat, List.map_append]
    simp
  · rw [if_neg hm]
    have hc : cap ≤ m := by omega
    have h3 : min m cap = cap := by omega
    have h4 : min (m + 1) cap = cap := by omega
    have h5 : m + 1 - cap = m - cap + 1 := by omega
    rw [h3, h4, h5]
    have h6 : (List.range' (m - cap) cap).tail ++ [m] =
        List.range' (m - cap + 1) cap := by
      have h7 := range'_tail_concat (m - cap) cap hcap
      rwa [show m - cap + cap = m by omega] at h7
    calc (List.range' (m - cap + 1) cap).map
          (fun i => (⟨t, i + 1, "ev"⟩ : HubEvent))
        = ((List.range' (m - cap) cap).tail ++ [m]).map
            (fun i => (⟨t, i + 1, "ev"⟩ : HubEvent)) := by rw [h6]
      _ = ((List.range' (m - cap) cap).map
            (fun i => (⟨t, i + 1, "ev"⟩ : HubEvent))).tail ++
            [⟨t, m + 1, "ev"⟩] := by
          rw [List.map_append, List.map_tail]
          rfl

/-- The capacity is unchanged by a publish. -/
theorem publish_capacity (h : Hub) (t : Topic) (payload : String) :
    (publish h t payload).capacity = h.capacity := by
  unfold publish
  exact setSeq_capacity h t _

/-- The state after `m` consecutive publishes on topic `t` into a fresh Hub
with a single subscriber that never drains: the topic counter is `m`, the
channel holds the last `min m cap` events, and the overflow marker is owed
exactly when the channel overflowed. -/
theorem publishN_parts (cap sid : Nat) (t : Topic) (hcap : 0 < cap) :
    ∀ m, (publishN (hubSubscribe (mkHub cap) sid t) t m).capacity = cap ∧
      (publishN (hubSubscribe (mkHub cap) sid t) t m).seqOf t = m ∧
      (publishN (hubSubscribe (mkHub cap) sid t) t m).subs =
        [⟨sid, t, 0, chanAfter t m cap, decide (cap < m)⟩] := by
  have hsub0 : hubSubscribe (mkHub cap) sid t =
      { mkHub cap with subs := [⟨sid, t, (mkHub cap).seqOf t, [], false⟩] } := by
    unfold hubSubscribe
    rw [if_neg (by simp [mkHub])]
    rfl
  intro m
  induction m with
  | zero =>
    refine ⟨?_, ?_, ?_⟩
    · show (hubSubscribe (mkHub cap) sid t).capacity = cap
      rw [hsub0]
      rfl
    · show (hubSubscribe (mkHub cap) sid t).seqOf t = 0
      rw [hsub0, seqOf_subsUpdate, seqOf_mkHub]
    · show (hubSubscribe (mkHub cap) sid t).subs = _
      rw [hsub0]
      have h1 : chanAfter t 0 cap = [] := by simp [chanAfter]
      have h2 : decide (cap < 0) = false := by simp
      rw [h1, h2, seqOf_mkHub]
  | succ m ih =>
    obtain ⟨ihcap, ihseq, ihsubs⟩ := ih
    have hstep : publishN (hubSubscribe (mkHub cap) sid t) t (m + 1) =
        publish (publishN (hubSubscribe (mkHub cap) sid t) t m) t "ev" := rfl
    have hdel : deliverTo cap ⟨t, m + 1, "ev"⟩
        ⟨sid, t, 0, chanAfter t m cap, decide (cap < m)⟩ =
        ⟨sid, t, 0, chanAfter t (m + 1) cap, decide (cap < m + 1)⟩ := by
      unfold deliverTo
      dsimp only
      rw [if_pos (beq_self_eq_true t)]
      have hlen : (chanAfter t m cap).length = min m cap := by
        unfold chanAfter
        rw [List.length_map, List.length_range']
      by_cases hm : m < cap
      · have hlt : (chanAfter t m cap).length < cap := by
          rw [hlen]; omega
        rw [if_pos hlt, chanAfter_succ t m cap hcap, if_pos hm]
        have hov : decide (cap < m) = decide (cap < m + 1) := by
          have h1 : ¬ cap < m := by omega
          have h2 : ¬ cap < m + 1 := by omega
          simp [h1, h2]
        rw [hov]
      · have hlt : ¬ (chanAfter t m cap).length < cap := by
          rw [hlen]; omega
        rw [if_neg hlt, chanAfter_succ t m cap hcap, if_neg hm]
        have hov : decide (cap < m + 1) = true := by
          simp
          omega
        rw [hov]
    refine ⟨?_, ?_, ?_⟩
    · rw [hstep, publish_capacity]
      exact ihcap
    · rw [hstep, publish_seqOf, if_pos rfl, ihseq]
    · rw [hstep, publish_subs, ihsubs, ihcap, ihseq, List.map_cons,
        List.map_nil, hdel]

/-- C5: backpressure.  `publish` is a total function that buffers instead of
waiting, so it returns for every one of `n` consecutive publishes to a
subscriber that never drains its channel — the channel provably stays
bounded by the capacity after every prefix.  Once more than `cap` events
have been published, the channel is full, the oldest events (sequence 1)
have been dropped in favour of the newest (sequence `n`), the
`SubscriberOverflow` marker is owed, and the next drain delivers the marker
followed by the retained events. -/
theorem hub_backpressure (cap n sid : Nat) (t : Topic) (hcap : 0 < cap)
    (hn : cap < n) :
    (∀ m, ∀ s ∈ (publishN (hubSubscribe (mkHub cap) sid t) t m).subs,
      s.channel.length ≤ cap) ∧
    ∃ sub, (publishN (hubSubscribe (mkHub cap) sid t) t n).subs = [sub] ∧
      sub.channel.length = cap ∧
      sub.overflowPending = true ∧
      (⟨t, 1, "ev"⟩ : HubEvent) ∉ sub.channel ∧
      (⟨t, n, "ev"⟩ : HubEvent) ∈ sub.channel ∧
      (hubStep (publishN (hubSubscribe (mkHub cap) sid t) t n)
          (HubAction.drain sid)).2 =
        (sid, DeliveredUnit.overflowMarker t) ::
          sub.channel.map (fun e => (sid, DeliveredUnit.event e)) := by
  have hlen : ∀ m, (chanAfter t m cap).length = min m cap := by
    intro m
    unfold chanAfter
    rw [List.length_map, List.length_range']
  constructor
  · intro m s hs
    rw [(publishN_parts cap sid t hcap m).2.2] at hs
    rcases List.mem_singleton.mp hs with rfl
    rw [hlen m]
    omega
  · have hov : decide (cap < n) = true := by
      rw [decide_eq_true_eq]
      exact hn
    have hsubs : (publishN (hubSubscribe (mkHub cap) sid t) t n).subs =
        [⟨sid, t, 0, chanAfter t n cap, true⟩] := by
      rw [(publishN_parts cap sid t hcap n).2.2, hov]
    refine ⟨⟨sid, t, 0, chanAfter t n cap, true⟩, hsubs, ?_, rfl, ?_, ?_, ?_⟩
    · show (chanAfter t n cap).length = cap
      rw [hlen n]
      omega
    · show (⟨t, 1, "ev"⟩ : HubEvent) ∉ chanAfter t n cap
      intro hmem
      unfold chanAfter at hmem
      rcases List.mem_map.mp hmem with ⟨i, hi, hfi⟩
      have hi1 : i + 1 = 1 := by
        have := congrArg HubEvent.sequence hfi
        simpa using this
      have hge : n - cap ≤ i := (List.mem_range'_1.mp hi).1
      omega
    · show (⟨t, n, "ev"⟩ : HubEvent) ∈ chanAfter t n cap
      unfold chanAfter
      refine List.mem_map.mpr ⟨n - 1, ?_, ?_⟩
      · refine List.mem_range'_1.mpr ⟨by omega, by omega⟩
      · have hn1 : n - 1 + 1 = n := by omega
        rw [hn1]
    · show (drainIn (publishN (hubSubscribe (mkHub cap) sid t) t n).subs
          sid).2.map (fun u => (sid, u)) = _
      rw [hsubs]
      have hdr : (drainIn [⟨sid, t, 0, chanAfter t n cap, true⟩] sid).2 =
          (drainSub ⟨sid, t, 0, chanAfter t n cap, true⟩).2 := by
        unfold drainIn
        rw [if_pos (beq_self_eq_true sid)]
      rw [hdr]
      have hds : (drainSub ⟨sid, t, 0, chanAfter t n cap, true⟩).2 =
          DeliveredUnit.overflowMarker t ::
            (chanAfter t n cap).map DeliveredUnit.event := by
        unfold drainSub
        rw [if_pos rfl]
        rfl
      rw [hds, List.map_cons, List.map_map]
      rfl

/-- C5 (witness): `hub_backpressure` with capacity 5 and 10000 consecutive
publishes. -/
theorem hub_backpressure_witness :
    0 < 5 ∧ 5 < 10000 ∧
    ((∀ m, ∀ s ∈ (publishN (hubSubscribe (mkHub 5) 7 Topic.DeviceState)
        Topic.DeviceState m).subs, s.channel.length ≤ 5) ∧
    ∃ sub, (publishN (hubSubscribe (mkHub 5) 7 Topic.DeviceState)
        Topic.DeviceState 10000).subs = [sub] ∧
      sub.channel.length = 5 ∧
      sub.overflowPending = true ∧
      (⟨Topic.DeviceState, 1, "ev"⟩ : HubEvent) ∉ sub.channel ∧
      (⟨Topic.DeviceState, 10000, "ev"⟩ : HubEvent) ∈ sub.channel ∧
      (hubStep (publishN (hubSubscribe (mkHub 5) 7 Topic.DeviceState)
          Topic.DeviceState 10000) (HubAction.drain 7)).2 =
        (7, DeliveredUnit.overflowMarker Topic.DeviceState) ::
          sub.channel.map (fun e => (7, DeliveredUnit.event e))) :=
  ⟨by decide, by decide,
    hub_backpressure 5 10000 7 Topic.DeviceState (by decide) (by decide)⟩

end OctoFarm
